import Mathlib

/-
  Verification development for the gosh shell (a shell written in Go).

  The Go sources are shallowly embedded: Go strings become Lean `String`
  (operated on through their underlying `List Char`; Go indexes bytes, the
  embedding indexes characters, which agree on the ASCII data all the
  specified behaviour is about), Go maps become association lists iterated
  in list order, the file system, PATH contents and the home directory are
  fixed lookup tables, and Go functions returning `(T, error)` become
  `Except String T`.

  Embedded components:
  - internal/parser: tokenize, expandAlias, expandVariables, parseBuiltin,
    parseExternal, the alias/export/cd builtins;
  - internal/completion: the completion Manager (the source tree contains
    two full copies of this package; both are embedded, the second with a
    `2` suffix);
  - internal/shell: shellCompleter.Do.
-/

namespace Gosh

/-! ## Models of the Go standard-library string primitives -/

/-- Model of `unicode.IsSpace` (the whitespace class used by
`strings.Fields` and `strings.TrimSpace`). -/
def goIsSpace (c : Char) : Bool :=
  c = ' ' || c = '\t' || c = '\n' || c = '\x0b' || c = '\x0c' || c = '\r' ||
  c.val = 0x85 || c.val = 0xA0

/-- Accumulator-based splitting of a character list into whitespace-delimited
fields; `acc` holds the reversed characters of the field being read. -/
def goFieldsAux : List Char → List Char → List String
  | acc, [] => if acc.isEmpty then [] else [⟨acc.reverse⟩]
  | acc, c :: cs =>
    if goIsSpace c then
      if acc.isEmpty then goFieldsAux [] cs
      else ⟨acc.reverse⟩ :: goFieldsAux [] cs
    else goFieldsAux (c :: acc) cs

/-- Model of `strings.Fields`: split around runs of whitespace. -/
def goFields (s : String) : List String := goFieldsAux [] s.data

/-- Model of `strings.Join(elems, " ")`. -/
def joinSpace : List String → String
  | [] => ""
  | [x] => x
  | x :: y :: xs => x ++ " " ++ joinSpace (y :: xs)

/-- Model of `strings.HasPrefix s pre`. -/
def strStartsWith (s pre : String) : Bool := pre.data.isPrefixOf s.data

/-- Model of `strings.HasSuffix s suf`. -/
def strEndsWith (s suf : String) : Bool := suf.data.isSuffixOf s.data

/-- Model of `strings.Contains s (String.singleton c)`. -/
def strContainsChar (s : String) (c : Char) : Bool := s.data.contains c

/-- Model of the Go slice `s[n:]` (character granularity). -/
def strDrop (s : String) (n : Nat) : String := ⟨s.data.drop n⟩

/-- Model of the Go slice `s[:n]` (character granularity). -/
def strTake (s : String) (n : Nat) : String := ⟨s.data.take n⟩

/-- Association-list lookup, the model of reading a Go map. -/
def lookupAssoc {α : Type} : List (String × α) → String → Option α
  | [], _ => none
  | (k, v) :: rest, key => if k = key then some v else lookupAssoc rest key

/-- Association-list update, the model of writing `m[k] = v` to a Go map. -/
def setAssoc : List (String × String) → String → String → List (String × String)
  | [], k, v => [(k, v)]
  | (k0, v0) :: rest, k, v =>
    if k0 = k then (k0, v) :: rest else (k0, v0) :: setAssoc rest k v

/-- Split a character list at the first occurrence of `target`, dropping it;
`none` when `target` does not occur.  Models `strings.Index`-based splitting. -/
def breakOnChar (target : Char) : List Char → Option (List Char × List Char)
  | [] => none
  | c :: cs =>
    if c = target then some ([], cs)
    else
      match breakOnChar target cs with
      | some (n, t) => some (c :: n, t)
      | none => none

/-- Model of `strings.SplitN s "=" 2`. -/
def goSplitN2Eq (s : String) : List String :=
  match breakOnChar '=' s.data with
  | some (a, b) => [⟨a⟩, ⟨b⟩]
  | none => [s]

/-- Model of `strings.TrimSpace`. -/
def goTrimSpace (s : String) : String :=
  ⟨((s.data.dropWhile goIsSpace).reverse.dropWhile goIsSpace).reverse⟩

/-- The cutset test of `strings.Trim(s, "\"'")`. -/
def isQuoteChar (c : Char) : Bool := c = '"' || c = '\''

/-- Model of `strings.Trim(s, "\"'")`: remove every leading and trailing
quote character (double or single, in any mixture). -/
def goTrimQuoteCutset (s : String) : String :=
  ⟨((s.data.dropWhile isQuoteChar).reverse.dropWhile isQuoteChar).reverse⟩

/-- Lexicographic comparison of strings by characters, the model of the
order used by `sort.Strings` (UTF-8 byte order coincides with code-point
order). -/
def strLeb : List Char → List Char → Bool
  | [], _ => true
  | _ :: _, [] => false
  | a :: as, b :: bs => if a = b then strLeb as bs else decide (a < b)

/-- Insert a string into a sorted list of strings. -/
def insertSorted (s : String) : List String → List String
  | [] => [s]
  | t :: ts => if strLeb s.data t.data then s :: t :: ts else t :: insertSorted s ts

/-- Model of `sort.Strings`: sort lexicographically ascending. -/
def goSortStrings : List String → List String
  | [] => []
  | s :: ss => insertSorted s (goSortStrings ss)

/-! ## internal/parser: the tokenizer (`Parser.tokenize`) -/

/-- The loop state of `Parser.tokenize`: emitted tokens, the token being
built, the quoting flags and the pending-escape flag. -/
structure TokState where
  tokens : List String
  current : List Char
  inQuotes : Bool
  quoteChar : Char
  escaped : Bool
deriving DecidableEq

/-- One iteration of the `for _, r := range input` loop of
`Parser.tokenize`, branch for branch. -/
def tokStep (st : TokState) (r : Char) : TokState :=
  if st.escaped then
    { st with current := st.current ++ [r], escaped := false }
  else if r = '\\' then
    { st with escaped := true }
  else if !st.inQuotes && (r = '"' || r = '\'') then
    { st with inQuotes := true, quoteChar := r }
  else if st.inQuotes && r = st.quoteChar then
    { st with inQuotes := false }
  else if !st.inQuotes && (r = ' ' || r = '\t') then
    if st.current.isEmpty then st
    else { st with tokens := st.tokens ++ [⟨st.current⟩], current := [] }
  else
    { st with current := st.current ++ [r] }

/-- The initial tokenizer state (the zero values of the Go locals). -/
def tokInit : TokState := ⟨[], [], false, Char.ofNat 0, false⟩

/-- The tokenizer state after consuming the whole input. -/
def tokRun (input : String) : TokState := input.data.foldl tokStep tokInit

/-- Model of `Parser.tokenize`: run the loop, fail on an unclosed quote,
flush the last token. -/
def tokenize (input : String) : Except String (List String) :=
  let st := tokRun input
  if st.inQuotes then .error "unclosed quote"
  else if st.current.isEmpty then .ok st.tokens
  else .ok (st.tokens ++ [⟨st.current⟩])

theorem strData_append (s t : String) : (s ++ t).data = s.data ++ t.data := rfl

theorem tokRun_whitespace : ∀ l : List Char, (∀ c ∈ l, c = ' ' ∨ c = '\t') →
    l.foldl tokStep tokInit = tokInit := by
  intro l
  induction l with
  | nil => intro _; rfl
  | cons c cs ih =>
    intro h
    have hc := h c (by simp)
    have hstep : tokStep tokInit c = tokInit := by
      rcases hc with h1 | h1 <;> subst h1 <;> rfl
    rw [List.foldl_cons, hstep]
    exact ih (fun d hd => h d (by simp [hd]))

/-- C2: the tokenizer treats an unescaped backslash as escaping exactly the
next character (appended literally, with no quote or separator meaning),
treats an unescaped unquoted double or single quote as opening a region
closed only by the matching quote character, inside which space and tab do
not separate tokens, never appends the delimiting quote characters to any
token, and on the concrete inputs `echo "hello world"`, `echo 'hello
world'` and `echo hello\ world` produces `["echo", "hello world"]`. -/
theorem C2_tokenize_quotes_and_escapes :
    (∀ (ts : List String) (cur : List Char) (inQ : Bool) (qc r : Char),
        tokStep ⟨ts, cur, inQ, qc, true⟩ r = ⟨ts, cur ++ [r], inQ, qc, false⟩)
    ∧ (∀ (ts : List String) (cur : List Char) (inQ : Bool) (qc : Char),
        tokStep ⟨ts, cur, inQ, qc, false⟩ '\\' = ⟨ts, cur, inQ, qc, true⟩)
    ∧ (∀ (ts : List String) (cur : List Char) (qc : Char),
        tokStep ⟨ts, cur, false, qc, false⟩ '"' = ⟨ts, cur, true, '"', false⟩)
    ∧ (∀ (ts : List String) (cur : List Char) (qc : Char),
        tokStep ⟨ts, cur, false, qc, false⟩ '\'' = ⟨ts, cur, true, '\'', false⟩)
    ∧ (∀ (ts : List String) (cur : List Char),
        tokStep ⟨ts, cur, true, '"', false⟩ '"' = ⟨ts, cur, false, '"', false⟩)
    ∧ (∀ (ts : List String) (cur : List Char),
        tokStep ⟨ts, cur, true, '\'', false⟩ '\'' = ⟨ts, cur, false, '\'', false⟩)
    ∧ (∀ (ts : List String) (cur : List Char),
        tokStep ⟨ts, cur, true, '"', false⟩ '\'' = ⟨ts, cur ++ ['\''], true, '"', false⟩)
    ∧ (∀ (ts : List String) (cur : List Char),
        tokStep ⟨ts, cur, true, '\'', false⟩ '"' = ⟨ts, cur ++ ['"'], true, '\'', false⟩)
    ∧ (∀ (ts : List String) (cur : List Char),
        tokStep ⟨ts, cur, true, '"', false⟩ ' ' = ⟨ts, cur ++ [' '], true, '"', false⟩)
    ∧ (∀ (ts : List String) (cur : List Char),
        tokStep ⟨ts, cur, true, '"', false⟩ '\t' = ⟨ts, cur ++ ['\t'], true, '"', false⟩)
    ∧ (∀ (ts : List String) (cur : List Char),
        tokStep ⟨ts, cur, true, '\'', false⟩ ' ' = ⟨ts, cur ++ [' '], true, '\'', false⟩)
    ∧ (∀ (ts : List String) (cur : List Char),
        tokStep ⟨ts, cur, true, '\'', false⟩ '\t' = ⟨ts, cur ++ ['\t'], true, '\'', false⟩)
    ∧ tokenize "echo \"hello world\"" = .ok ["echo", "hello world"]
    ∧ tokenize "echo 'hello world'" = .ok ["echo", "hello world"]
    ∧ tokenize "echo hello\\ world" = .ok ["echo", "hello world"] := by
  refine ⟨fun ts cur inQ qc r => rfl, fun ts cur inQ qc => rfl,
    fun ts cur qc => rfl, fun ts cur qc => rfl, fun ts cur => rfl,
    fun ts cur => rfl, fun ts cur => rfl, fun ts cur => rfl,
    fun ts cur => rfl, fun ts cur => rfl, fun ts cur => rfl,
    fun ts cur => rfl, rfl, rfl, rfl⟩

/-- C3: tokenize fails (with the unclosed-quote error) exactly when the
input ends inside an open quoted region; appending a pending (lone
trailing) backslash changes nothing; and empty or whitespace-only input
yields the empty token sequence, never an error and never an empty
token. -/
theorem C3_tokenize_error_conditions :
    (∀ s : String, tokenize s = .error "unclosed quote" ↔ (tokRun s).inQuotes = true)
    ∧ (∀ s : String, (tokRun s).escaped = false → tokenize (s ++ "\\") = tokenize s)
    ∧ (∀ s : String, (∀ c ∈ s.data, c = ' ' ∨ c = '\t') → tokenize s = .ok [])
    ∧ tokenize "" = .ok []
    ∧ tokenize "   \t  " = .ok [] := by
  refine ⟨?_, ?_, ?_, rfl, rfl⟩
  · intro s
    by_cases h : (tokRun s).inQuotes
    · simp [tokenize, h]
    · simp only [tokenize, h, Bool.false_eq_true, if_false]
      constructor
      · intro hcontra
        by_cases hcur : (tokRun s).current.isEmpty <;> simp [hcur] at hcontra
      · intro hcontra
        exact absurd hcontra (by simp [h])
  · intro s h
    have hd : (s ++ "\\").data = s.data ++ ['\\'] := strData_append s "\\"
    have hrun : tokRun (s ++ "\\") = tokStep (tokRun s) '\\' := by
      simp [tokRun, hd, List.foldl_append]
    have hstep : tokStep (tokRun s) '\\' = { tokRun s with escaped := true } := by
      simp [tokStep, h]
    simp [tokenize, hrun, hstep]
  · intro s h
    unfold tokenize tokRun
    rw [tokRun_whitespace s.data h]
    rfl

/-- Closed instance of the conditional parts of C3. -/
theorem C3_witness :
    ((tokRun "ab").escaped = false ∧ tokenize ("ab" ++ "\\") = tokenize "ab")
    ∧ ((∀ c ∈ (" \t ").data, c = ' ' ∨ c = '\t') ∧ tokenize " \t " = .ok [])
    ∧ (tokenize "\"x" = .error "unclosed quote" ↔ (tokRun "\"x").inQuotes = true) :=
  ⟨⟨rfl, C3_tokenize_error_conditions.2.1 "ab" rfl⟩,
   ⟨by decide, C3_tokenize_error_conditions.2.2.1 " \t " (by decide)⟩,
   C3_tokenize_error_conditions.1 "\"x"⟩

/-! ## internal/parser: alias expansion (`Parser.expandAlias`) -/

/-- Model of `Parser.expandAlias`: split into whitespace fields, replace the
first field with its alias expansion when it is a key of the table, rejoin
with single spaces. -/
def expandAlias (aliases : List (String × String)) (input : String) : String × Bool :=
  match goFields input with
  | [] => (input, false)
  | w :: rest =>
    match lookupAssoc aliases w with
    | some expansion => (joinSpace (expansion :: rest), true)
    | none => (input, false)

/-- C4: alias expansion replaces exactly the first whitespace field when it
is a key of the table (rejoining all fields with single spaces, reporting
true), is applied exactly once (the replacement is not re-scanned, so an
alias expanding to another alias name is not re-aliased), and leaves a line
whose first field is not a key — and the empty line — unchanged with
false. -/
theorem C4_expand_alias :
    (∀ (tbl : List (String × String)) (line : String),
        goFields line = [] → expandAlias tbl line = (line, false))
    ∧ (∀ (tbl : List (String × String)) (line w : String) (rest : List String) (v : String),
        goFields line = w :: rest → lookupAssoc tbl w = some v →
        expandAlias tbl line = (joinSpace (v :: rest), true))
    ∧ (∀ (tbl : List (String × String)) (line w : String) (rest : List String),
        goFields line = w :: rest → lookupAssoc tbl w = none →
        expandAlias tbl line = (line, false))
    ∧ expandAlias [("a", "b"), ("b", "c")] "a" = ("b", true)
    ∧ expandAlias [("ll", "ls -la")] "ll /home" = ("ls -la /home", true)
    ∧ expandAlias [("ll", "ls -la")] "ls -la" = ("ls -la", false)
    ∧ expandAlias [("ll", "ls -la")] "" = ("", false) := by
  refine ⟨?_, ?_, ?_, rfl, rfl, rfl, rfl⟩
  · intro tbl line h
    simp [expandAlias, h]
  · intro tbl line w rest v h hv
    simp [expandAlias, h, hv]
  · intro tbl line w rest h hv
    simp [expandAlias, h, hv]

/-- Closed instance of the conditional parts of C4. -/
theorem C4_witness :
    (goFields "  " = [] ∧ expandAlias [("x", "y")] "  " = ("  ", false))
    ∧ (goFields "x 1" = ["x", "1"] ∧ lookupAssoc [("x", "y")] "x" = some "y"
        ∧ expandAlias [("x", "y")] "x 1" = (joinSpace ["y", "1"], true))
    ∧ (goFields "z 1" = ["z", "1"] ∧ lookupAssoc [("x", "y")] "z" = none
        ∧ expandAlias [("x", "y")] "z 1" = ("z 1", false)) :=
  ⟨⟨rfl, C4_expand_alias.1 [("x", "y")] "  " rfl⟩,
   ⟨rfl, rfl, C4_expand_alias.2.1 [("x", "y")] "x 1" "x" ["1"] "y" rfl rfl⟩,
   ⟨rfl, rfl, C4_expand_alias.2.2.1 [("x", "y")] "z 1" "z" ["1"] rfl rfl⟩⟩

/-! ## internal/parser: variable expansion (`Parser.expandVariables`) -/

/-- Model of the parser's `isAlphaNumeric` helper. -/
def isAlphaNumeric (c : Char) : Bool :=
  (decide ('a' ≤ c) && decide (c ≤ 'z')) ||
  (decide ('A' ≤ c) && decide (c ≤ 'Z')) ||
  (decide ('0' ≤ c) && decide (c ≤ '9'))

/-- The character class forming a `$name` variable name:
`isAlphaNumeric(c) || c == '_'`. -/
def isVarChar (c : Char) : Bool := isAlphaNumeric c || c = '_'

/-- Model of `Parser.getVariable`: the config environment overlay first,
then the system environment, then the empty string. -/
def getVariable (overlay sysEnv : List (String × String)) (name : String) : String :=
  match lookupAssoc overlay name with
  | some v => v
  | none =>
    match lookupAssoc sysEnv name with
    | some v => v
    | none => ""

theorem breakOnChar_length {t : Char} : ∀ {l n tl : List Char},
    breakOnChar t l = some (n, tl) → tl.length < l.length := by
  intro l
  induction l with
  | nil => intro n tl h; simp [breakOnChar] at h
  | cons c cs ih =>
    intro n tl h
    by_cases hc : c = t
    · simp [breakOnChar, hc] at h
      simp [← h.2]
    · simp only [breakOnChar, hc, if_false] at h
      cases hbr : breakOnChar t cs with
      | none => rw [hbr] at h; simp at h
      | some p =>
        rw [hbr] at h
        cases p with
        | mk n2 t2 =>
          simp at h
          have := ih hbr
          simp [← h.2]
          omega

theorem dropWhile_length_le (p : α → Bool) : ∀ l : List α,
    (l.dropWhile p).length ≤ l.length := by
  intro l
  induction l with
  | nil => simp
  | cons c cs ih =>
    by_cases hc : p c
    · rw [List.dropWhile_cons_of_pos hc]; exact Nat.le_succ_of_le ih
    · rw [List.dropWhile_cons_of_neg hc]

/-- Model of the scanning loop of `Parser.expandVariables`: resolve each
`$name` / `$\x7bname\x7d` occurrence, splice the value in and continue after
it (the value is not re-scanned); a `$` not followed by a name character or
an opening brace is left untouched, as is a `$\x7b` with no closing brace in
the rest of the input (scanning continues at the brace). -/
def expandVarsAux (ov sys : List (String × String)) : List Char → List Char
  | [] => []
  | c :: cs =>
    if c = '$' then
      match cs with
      | [] => ['$']
      | d :: ds =>
        if d = '\x7b' then
          match hbr : breakOnChar '\x7d' ds with
          | some (name, tail) =>
            (getVariable ov sys ⟨name⟩).data ++ expandVarsAux ov sys tail
          | none => '$' :: expandVarsAux ov sys (d :: ds)
        else if isVarChar d then
          (getVariable ov sys ⟨(d :: ds).takeWhile isVarChar⟩).data
            ++ expandVarsAux ov sys ((d :: ds).dropWhile isVarChar)
        else '$' :: expandVarsAux ov sys (d :: ds)
    else c :: expandVarsAux ov sys (c :: cs).tail
termination_by l => l.length
decreasing_by
  · simp only [List.length_cons]
    have := breakOnChar_length hbr
    omega
  · simp [List.length_cons]
  · refine Nat.lt_of_le_of_lt (dropWhile_length_le _ _) ?_
    simp
  · simp [List.length_cons]
  · simp

/-- Model of `Parser.expandVariables`. -/
def expandVariables (ov sys : List (String × String)) (token : String) : String :=
  ⟨expandVarsAux ov sys token.data⟩

/-! ## internal/parser: builtin dispatch and external commands -/

/-- The `Command` variants built by `Parser.parseBuiltin` and
`Parser.parseExternal`. -/
inductive Cmd where
  | noOp : Cmd
  | cd : List String → Cmd
  | pwd : Cmd
  | exitCmd : List String → Cmd
  | helpCmd : List String → Cmd
  | historyCmd : List String → Cmd
  | aliasCmd : List String → Cmd
  | exportCmd : List String → Cmd
  | external : String → List String → Cmd
deriving DecidableEq

/-- Model of `Parser.parseBuiltin`: a fixed table on the first token. -/
def parseBuiltin : List String → Option Cmd
  | [] => none
  | cmd :: args =>
    if cmd = "cd" then some (.cd args)
    else if cmd = "pwd" then some .pwd
    else if cmd = "exit" then some (.exitCmd args)
    else if cmd = "help" then some (.helpCmd args)
    else if cmd = "history" then some (.historyCmd args)
    else if cmd = "alias" then some (.aliasCmd args)
    else if cmd = "export" then some (.exportCmd args)
    else none

/-- Model of `Parser.parseExternal`: expand variables in every token, the
first expanded token is the program name, the rest are the arguments. -/
def parseExternal (ov sys : List (String × String)) (tokens : List String) : Cmd :=
  let expanded := tokens.map (expandVariables ov sys)
  .external (expanded.headD "") expanded.tail

/-- The builtin-vs-external dispatch of `Parser.Parse` on a non-empty token
list: builtins win, everything else becomes an external command. -/
def parseTokens (ov sys : List (String × String)) (tokens : List String) : Option Cmd :=
  match tokens with
  | [] => none
  | _ :: _ =>
    match parseBuiltin tokens with
    | some b => some b
    | none => some (parseExternal ov sys tokens)

theorem breakOnChar_not_mem_append {t : Char} : ∀ (name rest : List Char), t ∉ name →
    breakOnChar t (name ++ t :: rest) = some (name, rest) := by
  intro name
  induction name with
  | nil => intro rest _; simp [breakOnChar]
  | cons c cs ih =>
    intro rest h
    have hc : c ≠ t := by intro hc; exact h (by simp [hc])
    have hcs : t ∉ cs := fun hm => h (by simp [hm])
    simp only [List.cons_append, breakOnChar, hc, if_false, List.append_eq, ih rest hcs]

theorem takeWhile_dropWhile_append (p : α → Bool) : ∀ (xs ys : List α),
    (∀ x ∈ xs, p x = true) → (∀ y ∈ ys.take 1, p y = false) →
    (xs ++ ys).takeWhile p = xs ∧ (xs ++ ys).dropWhile p = ys := by
  intro xs
  induction xs with
  | nil =>
    intro ys _ hy
    cases ys with
    | nil => simp
    | cons y ys2 =>
      have : p y = false := hy y (by simp)
      simp [List.takeWhile_cons_of_neg, List.dropWhile_cons_of_neg, this]
  | cons x xs2 ih =>
    intro ys hx hy
    have hpx : p x = true := hx x (by simp)
    have := ih ys (fun z hz => hx z (by simp [hz])) hy
    simp [List.takeWhile_cons_of_pos hpx, List.dropWhile_cons_of_pos hpx, this]

theorem expandVarsAux_nil (ov sys : List (String × String)) :
    expandVarsAux ov sys [] = [] := by
  rw [expandVarsAux.eq_def]

theorem expandVarsAux_brace (ov sys : List (String × String)) (name rest : List Char)
    (h : '\x7d' ∉ name) :
    expandVarsAux ov sys ('$' :: '\x7b' :: (name ++ '\x7d' :: rest)) =
      (getVariable ov sys ⟨name⟩).data ++ expandVarsAux ov sys rest := by
  rw [expandVarsAux.eq_def]
  dsimp only
  rw [if_pos rfl, if_pos rfl]
  split
  · rename_i n tl heq
    rw [breakOnChar_not_mem_append name rest h] at heq
    injection heq with heq2
    injection heq2 with hn htl
    rw [hn, htl]
  · rename_i heq
    rw [breakOnChar_not_mem_append name rest h] at heq
    exact absurd heq (by simp)

theorem expandVarsAux_dollar_name (ov sys : List (String × String)) (name rest : List Char)
    (hne : name ≠ []) (hname : ∀ c ∈ name, isVarChar c = true)
    (hrest : ∀ c ∈ rest.take 1, isVarChar c = false) :
    expandVarsAux ov sys ('$' :: (name ++ rest)) =
      (getVariable ov sys ⟨name⟩).data ++ expandVarsAux ov sys rest := by
  obtain ⟨d, ds, rfl⟩ : ∃ d ds, name = d :: ds := by
    cases name with
    | nil => exact absurd rfl hne
    | cons d ds => exact ⟨d, ds, rfl⟩
  have hd : isVarChar d = true := hname d (by simp)
  have htd := takeWhile_dropWhile_append isVarChar (d :: ds) rest hname hrest
  have hdbrace : ¬(d = '\x7b') := by
    intro hcontra
    rw [hcontra] at hd
    simp [isVarChar, isAlphaNumeric] at hd
  rw [show ((d :: ds) ++ rest : List Char) = d :: (ds ++ rest) from rfl]
  rw [expandVarsAux.eq_def]
  dsimp only
  rw [if_pos rfl, if_neg hdbrace, if_pos hd]
  rw [show (d :: (ds ++ rest) : List Char) = (d :: ds) ++ rest from rfl]
  rw [htd.1, htd.2]

theorem expandVarsAux_bare_dollar (ov sys : List (String × String)) (d : Char)
    (ds : List Char) (hd : isVarChar d = false) (hbr : d ≠ '\x7b') :
    expandVarsAux ov sys ('$' :: d :: ds) = '$' :: expandVarsAux ov sys (d :: ds) := by
  rw [expandVarsAux.eq_def]
  dsimp only
  rw [if_pos rfl, if_neg hbr, if_neg (by simp [hd])]

theorem expandVarsAux_trailing_dollar (ov sys : List (String × String)) :
    expandVarsAux ov sys ['$'] = ['$'] := by
  rw [expandVarsAux.eq_def]
  dsimp only
  rw [if_pos rfl]

/-- C5: variable expansion resolves each name via the overlay first with
fallback to the system environment and default empty string, splices the
value in verbatim (never re-scanned: the result continues with the
expansion of the original tail), leaves a `$` not followed by a name
character or brace untouched, and is applied to every token of an external
command but to no argument of a builtin command. -/
theorem C5_variable_expansion :
    (∀ (ov sys : List (String × String)) (name : String) (v : String),
        lookupAssoc ov name = some v → getVariable ov sys name = v)
    ∧ (∀ (ov sys : List (String × String)) (name : String) (v : String),
        lookupAssoc ov name = none → lookupAssoc sys name = some v →
        getVariable ov sys name = v)
    ∧ (∀ (ov sys : List (String × String)) (name : String),
        lookupAssoc ov name = none → lookupAssoc sys name = none →
        getVariable ov sys name = "")
    ∧ (∀ (ov sys : List (String × String)) (name rest : List Char),
        '\x7d' ∉ name →
        expandVarsAux ov sys ('$' :: '\x7b' :: (name ++ '\x7d' :: rest)) =
          (getVariable ov sys ⟨name⟩).data ++ expandVarsAux ov sys rest)
    ∧ (∀ (ov sys : List (String × String)) (name rest : List Char),
        name ≠ [] → (∀ c ∈ name, isVarChar c = true) →
        (∀ c ∈ rest.take 1, isVarChar c = false) →
        expandVarsAux ov sys ('$' :: (name ++ rest)) =
          (getVariable ov sys ⟨name⟩).data ++ expandVarsAux ov sys rest)
    ∧ (∀ (ov sys : List (String × String)) (d : Char) (ds : List Char),
        isVarChar d = false → d ≠ '\x7b' →
        expandVarsAux ov sys ('$' :: d :: ds) = '$' :: expandVarsAux ov sys (d :: ds))
    ∧ (∀ ov sys : List (String × String), expandVarsAux ov sys ['$'] = ['$'])
    ∧ expandVariables [("A", "$B")] [("B", "x")] "$A" = "$B"
    ∧ (∀ (ov sys : List (String × String)) (t0 : String) (rest : List String),
        parseBuiltin (t0 :: rest) = none →
        parseTokens ov sys (t0 :: rest) =
          some (.external (expandVariables ov sys t0) (rest.map (expandVariables ov sys))))
    ∧ (∀ (ov sys : List (String × String)) (rest : List String),
        parseTokens ov sys ("cd" :: rest) = some (.cd rest)
        ∧ parseTokens ov sys ("pwd" :: rest) = some .pwd
        ∧ parseTokens ov sys ("exit" :: rest) = some (.exitCmd rest)
        ∧ parseTokens ov sys ("help" :: rest) = some (.helpCmd rest)
        ∧ parseTokens ov sys ("history" :: rest) = some (.historyCmd rest)
        ∧ parseTokens ov sys ("alias" :: rest) = some (.aliasCmd rest)
        ∧ parseTokens ov sys ("export" :: rest) = some (.exportCmd rest)) := by
  refine ⟨?_, ?_, ?_, expandVarsAux_brace, expandVarsAux_dollar_name,
    expandVarsAux_bare_dollar, expandVarsAux_trailing_dollar, ?_, ?_, ?_⟩
  · intro ov sys name v h; simp [getVariable, h]
  · intro ov sys name v h1 h2; simp [getVariable, h1, h2]
  · intro ov sys name h1 h2; simp [getVariable, h1, h2]
  · show expandVariables [("A", "$B")] [("B", "x")] "$A" = "$B"
    have : ("$A").data = '$' :: (['A'] ++ []) := rfl
    unfold expandVariables
    rw [this, expandVarsAux_dollar_name _ _ ['A'] [] (by simp) (by decide) (by simp)]
    rw [expandVarsAux_nil]
    rfl
  · intro ov sys t0 rest h
    simp [parseTokens, h, parseExternal]
  · intro ov sys rest
    refine ⟨rfl, rfl, rfl, rfl, rfl, rfl, rfl⟩

/-- Closed instance of the conditional parts of C5. -/
theorem C5_witness :
    (lookupAssoc [("U", "u")] "U" = some "u" ∧ getVariable [("U", "u")] [] "U" = "u")
    ∧ (lookupAssoc [] "P" = (none : Option String) ∧ lookupAssoc [("P", "p")] "P" = some "p"
        ∧ getVariable [] [("P", "p")] "P" = "p")
    ∧ (lookupAssoc [] "Z" = (none : Option String) ∧ getVariable [] [] "Z" = "")
    ∧ ('\x7d' ∉ (['U'] : List Char)
        ∧ expandVarsAux [("U", "u")] [] ('$' :: '\x7b' :: (['U'] ++ '\x7d' :: [' '])) =
            (getVariable [("U", "u")] [] ⟨['U']⟩).data ++ expandVarsAux [("U", "u")] [] [' '])
    ∧ expandVarsAux [("U", "u")] [] ('$' :: (['U'] ++ [' '])) =
        (getVariable [("U", "u")] [] ⟨['U']⟩).data ++ expandVarsAux [("U", "u")] [] [' ']
    ∧ expandVarsAux [] [] ('$' :: ' ' :: []) = '$' :: expandVarsAux [] [] [' ']
    ∧ parseTokens [] [] ["ls", "x"] =
        some (.external (expandVariables [] [] "ls") (["x"].map (expandVariables [] []))) :=
  ⟨⟨rfl, C5_variable_expansion.1 [("U", "u")] [] "U" "u" rfl⟩,
   ⟨rfl, rfl, C5_variable_expansion.2.1 [] [("P", "p")] "P" "p" rfl rfl⟩,
   ⟨rfl, C5_variable_expansion.2.2.1 [] [] "Z" rfl rfl⟩,
   ⟨by decide, C5_variable_expansion.2.2.2.1 [("U", "u")] [] ['U'] [' '] (by decide)⟩,
   C5_variable_expansion.2.2.2.2.1 [("U", "u")] [] ['U'] [' '] (by decide) (by decide)
     (by decide),
   C5_variable_expansion.2.2.2.2.2.1 [] [] ' ' [] (by decide) (by decide),
   C5_variable_expansion.2.2.2.2.2.2.2.2.1 [] [] "ls" ["x"] rfl⟩

/-! ## internal/parser: the alias and export builtins -/

/-- Model of `AliasCommand.Execute` on the shared alias table: with no
arguments only display; otherwise rejoin the arguments with spaces, split
once on the first `=` (error when absent), trim whitespace around the name,
trim whitespace and then every leading/trailing quote character around the
value, and store. -/
def aliasExecute (args : List String) (aliases : List (String × String)) :
    Except String (List (String × String)) :=
  if args.isEmpty then .ok aliases
  else
    match goSplitN2Eq (joinSpace args) with
    | [n, v] => .ok (setAssoc aliases (goTrimSpace n) (goTrimQuoteCutset (goTrimSpace v)))
    | _ => .error "alias: invalid format, use: alias name=value"

/-- Model of `ExportCommand.Execute` on the environment overlay and the
process environment (`os.Setenv` modelled as updating the system table). -/
def exportExecute (args : List String) (envOverlay sysEnv : List (String × String)) :
    Except String (List (String × String) × List (String × String)) :=
  if args.isEmpty then .ok (envOverlay, sysEnv)
  else
    match goSplitN2Eq (joinSpace args) with
    | [n, v] =>
      .ok (setAssoc envOverlay (goTrimSpace n) (goTrimQuoteCutset (goTrimSpace v)),
           setAssoc sysEnv (goTrimSpace n) (goTrimQuoteCutset (goTrimSpace v)))
    | _ => .error "export: invalid format, use: export NAME=value"

/-- The value trimming that claim C6 describes, in the claim's own words:
remove surrounding whitespace and then one layer of matching double- or
single-quote characters.  This is the claim-side definition used by the
counterexample; the code instead removes every leading and trailing quote
character. -/
def specUnquoteOneLayer (s : String) : String :=
  match s.data with
  | [] => s
  | c :: rest =>
    if isQuoteChar c ∧ rest ≠ [] ∧ rest.getLast? = some c then ⟨rest.dropLast⟩ else s

theorem breakOnChar_none_iff {t : Char} : ∀ l : List Char,
    breakOnChar t l = none ↔ t ∉ l := by
  intro l
  induction l with
  | nil => simp [breakOnChar]
  | cons c cs ih =>
    by_cases hc : c = t
    · simp [breakOnChar, hc]
    · simp only [breakOnChar, hc, if_false]
      cases hbr : breakOnChar t cs with
      | none =>
        have hmem := ih.mp hbr
        simp only [hbr]
        constructor
        · intro _
          simp only [List.mem_cons, not_or]
          exact ⟨fun h => hc h.symm, hmem⟩
        · intro _; trivial
      | some p =>
        cases p with
        | mk a b =>
          simp only [hbr]
          constructor
          · intro h; exact absurd h (by simp)
          · intro h
            exact absurd (ih.mpr (fun hm => h (by simp [hm]))) (by simp [hbr])

/-- C6 counterexample: on `alias x=''v''` the code stores the value `v`
(every leading and trailing quote character removed), while removing one
layer of matching quotes as the claim states would store `'v'`. -/
theorem C6_counterexample :
    aliasExecute ["x=''v''"] [] = .ok [("x", "v")]
    ∧ specUnquoteOneLayer (goTrimSpace "''v''") = "'v'"
    ∧ ("v" : String) ≠ "'v'" :=
  ⟨rfl, rfl, by decide⟩

/-- C6 (amended): for a non-empty argument list, alias and export rejoin
the arguments with single spaces and split once on the first `=`; they fail
with an invalid-format error exactly when no `=` is present; otherwise the
whitespace-trimmed text before the `=` is bound to the value after it,
where the stored value has surrounding whitespace removed and then all
leading and trailing double- or single-quote characters removed (not just
one matching layer); export additionally writes the same binding into the
process environment. -/
theorem C6_alias_export_assignment :
    ∀ (args : List String) (aliases ov sys : List (String × String)),
      args ≠ [] →
      ((∃ e, aliasExecute args aliases = .error e) ↔ '=' ∉ (joinSpace args).data)
      ∧ ((∃ e, exportExecute args ov sys = .error e) ↔ '=' ∉ (joinSpace args).data)
      ∧ (∀ n v : List Char, breakOnChar '=' (joinSpace args).data = some (n, v) →
          aliasExecute args aliases =
            .ok (setAssoc aliases (goTrimSpace ⟨n⟩) (goTrimQuoteCutset (goTrimSpace ⟨v⟩)))
          ∧ exportExecute args ov sys =
            .ok (setAssoc ov (goTrimSpace ⟨n⟩) (goTrimQuoteCutset (goTrimSpace ⟨v⟩)),
                 setAssoc sys (goTrimSpace ⟨n⟩) (goTrimQuoteCutset (goTrimSpace ⟨v⟩)))) := by
  intro args aliases ov sys hne
  have hemp : args.isEmpty = false := by
    cases args with
    | nil => exact absurd rfl hne
    | cons a as => rfl
  refine ⟨?_, ?_, ?_⟩
  · cases hbr : breakOnChar '=' (joinSpace args).data with
    | none =>
      simp only [aliasExecute, hemp, Bool.false_eq_true, if_false, goSplitN2Eq, hbr]
      simp [(breakOnChar_none_iff _).mp hbr]
    | some p =>
      cases p with
      | mk n v =>
        simp only [aliasExecute, hemp, Bool.false_eq_true, if_false, goSplitN2Eq, hbr]
        constructor
        · intro ⟨e, he⟩; exact absurd he (by simp)
        · intro h
          exact absurd ((breakOnChar_none_iff _).mpr h) (by simp [hbr])
  · cases hbr : breakOnChar '=' (joinSpace args).data with
    | none =>
      simp only [exportExecute, hemp, Bool.false_eq_true, if_false, goSplitN2Eq, hbr]
      simp [(breakOnChar_none_iff _).mp hbr]
    | some p =>
      cases p with
      | mk n v =>
        simp only [exportExecute, hemp, Bool.false_eq_true, if_false, goSplitN2Eq, hbr]
        constructor
        · intro ⟨e, he⟩; exact absurd he (by simp)
        · intro h
          exact absurd ((breakOnChar_none_iff _).mpr h) (by simp [hbr])
  · intro n v hbr
    constructor
    · simp [aliasExecute, hemp, goSplitN2Eq, hbr]
    · simp [exportExecute, hemp, goSplitN2Eq, hbr]

/-- Closed instance of the conditional parts of C6 (amended). -/
theorem C6_witness :
    ((∃ e, aliasExecute ["novalue"] [] = .error e) ↔ '=' ∉ (joinSpace ["novalue"]).data)
    ∧ aliasExecute ["k", "=", "'v'"] [] =
        .ok (setAssoc [] (goTrimSpace ⟨"k ".data⟩)
          (goTrimQuoteCutset (goTrimSpace ⟨" 'v'".data⟩))) :=
  ⟨(C6_alias_export_assignment ["novalue"] [] [] [] (by simp)).1,
   ((C6_alias_export_assignment ["k", "=", "'v'"] [] [] [] (by simp)).2.2
      "k ".data " 'v'".data rfl).1⟩

/-! ## Models of `path/filepath` (unix separator) -/

/-- Split on `/`, the model of `strings.Split(s, "/")`; `acc` holds the
reversed characters of the component being read. -/
def splitSlashAux : List Char → List Char → List String
  | acc, [] => [⟨acc.reverse⟩]
  | acc, c :: cs =>
    if c = '/' then ⟨acc.reverse⟩ :: splitSlashAux [] cs
    else splitSlashAux (c :: acc) cs

/-- The element-stack processing of `path.Clean`: empty and `.` components
are dropped, `..` pops a non-`..` top (or is kept when unrooted and nothing
can be popped, or dropped when rooted at the root), everything else is
pushed.  The stack is kept reversed. -/
def cleanStack (rooted : Bool) : List String → List String → List String
  | stack, [] => stack
  | stack, e :: es =>
    if e = "" ∨ e = "." then cleanStack rooted stack es
    else if e = ".." then
      match stack with
      | t :: rest =>
        if t = ".." then cleanStack rooted (e :: t :: rest) es
        else cleanStack rooted rest es
      | [] => if rooted then cleanStack rooted [] es else cleanStack rooted [e] es
    else cleanStack rooted (e :: stack) es

/-- Model of `strings.Join(elems, "/")`. -/
def joinWithSlash : List String → String
  | [] => ""
  | [x] => x
  | x :: y :: xs => x ++ "/" ++ joinWithSlash (y :: xs)

/-- Model of `filepath.Clean` for slash-separated paths: lexically eliminate
multiple separators, `.` and (where possible) `..` elements. -/
def goClean (p : String) : String :=
  if p = "" then "."
  else
    let rooted := strStartsWith p "/"
    let stack := (cleanStack rooted [] (splitSlashAux [] p.data)).reverse
    if rooted then
      if stack.isEmpty then "/" else "/" ++ joinWithSlash stack
    else
      if stack.isEmpty then "." else joinWithSlash stack

/-- Model of `filepath.Join(a, b)`: skip empty elements, join with `/`,
clean. -/
def goJoin2 (a b : String) : String :=
  if a = "" ∧ b = "" then ""
  else if a = "" then goClean b
  else if b = "" then goClean a
  else goClean (a ++ "/" ++ b)

/-- Model of `filepath.Dir`: everything up to and including the final
separator, cleaned (`.` when there is no separator). -/
def goDir (p : String) : String :=
  goClean ⟨(p.data.reverse.dropWhile (fun c => c ≠ '/')).reverse⟩

/-- Model of `filepath.Base`: the last element after removing trailing
separators (`.` for the empty path, `/` for all-separator paths). -/
def goBase (p : String) : String :=
  if p = "" then "."
  else
    let trimmed := p.data.reverse.dropWhile (fun c => c = '/')
    if trimmed.isEmpty then "/"
    else ⟨(trimmed.takeWhile (fun c => c ≠ '/')).reverse⟩

/-! ## internal/parser: the cd builtin -/

/-- The `~/` rewrite of `CdCommand.Execute`: only the exact `~/` prefix is
rewritten to the home directory; everything else (including a bare `~`)
goes through untouched. -/
def cdRewriteTilde (dir : String) (home : Option String) : Except String String :=
  if strStartsWith dir "~/" then
    match home with
    | none => .error "failed to get home directory"
    | some h => .ok (goJoin2 h (strDrop dir 2))
  else .ok dir

/-- Model of `CdCommand.Execute` up to the actual `os.Chdir` call: the
directory handed to the directory change, or the error raised before it. -/
def cdTargetDir (args : List String) (home : Option String) : Except String String :=
  match args with
  | [] =>
    match home with
    | none => .error "failed to get home directory"
    | some h => cdRewriteTilde h home
  | a :: _ => cdRewriteTilde a home

/-- Model of `Manager.expandHomeDirectory` of the completion engine, which
(unlike cd) special-cases both the `~/` prefix and a bare `~`. -/
def expandHomeDirectory (home : Option String) (dir : String) : Except String String :=
  if strStartsWith dir "~/" then
    match home with
    | none => .error "user home directory not found"
    | some h => .ok (goJoin2 h (strDrop dir 2))
  else if dir = "~" then
    match home with
    | none => .error "user home directory not found"
    | some h => .ok h
  else .ok dir

/-- C7: cd with no arguments targets the home directory and fails when it
cannot be determined; an argument with the exact `~/` prefix is rewritten
through the home directory before the change is attempted; a bare `~` is
not special-cased by cd (it is passed through literally), although the
completion engine's home expansion does resolve a bare `~`. -/
theorem C7_cd_tilde_handling :
    cdTargetDir [] none = .error "failed to get home directory"
    ∧ (∀ h : String, strStartsWith h "~/" = false → cdTargetDir [] (some h) = .ok h)
    ∧ (∀ (h rest : String) (args : List String),
        cdTargetDir (("~/" ++ rest) :: args) (some h) = .ok (goJoin2 h rest))
    ∧ (∀ (rest : String) (args : List String),
        cdTargetDir (("~/" ++ rest) :: args) none = .error "failed to get home directory")
    ∧ (∀ (args : List String) (home : Option String),
        cdTargetDir ("~" :: args) home = .ok "~")
    ∧ (∀ h : String, expandHomeDirectory (some h) "~" = .ok h) := by
  refine ⟨rfl, ?_, ?_, ?_, ?_, ?_⟩
  · intro h hp
    simp [cdTargetDir, cdRewriteTilde, hp]
  · intro h rest args
    have hpre : strStartsWith ("~/" ++ rest) "~/" = true := by
      simp [strStartsWith, strData_append]
    simp [cdTargetDir, cdRewriteTilde, hpre, strDrop, strData_append]
  · intro rest args
    have hpre : strStartsWith ("~/" ++ rest) "~/" = true := by
      simp [strStartsWith, strData_append]
    simp [cdTargetDir, cdRewriteTilde, hpre]
  · intro args home
    simp [cdTargetDir, cdRewriteTilde, strStartsWith, List.isPrefixOf]
  · intro h; rfl

/-- Closed instance of the conditional parts of C7. -/
theorem C7_witness :
    (strStartsWith "/root" "~/" = false ∧ cdTargetDir [] (some "/root") = .ok "/root")
    ∧ cdTargetDir [("~/" ++ "docs")] (some "/root") = .ok (goJoin2 "/root" "docs")
    ∧ cdTargetDir ["~"] (some "/root") = .ok "~" :=
  ⟨⟨rfl, C7_cd_tilde_handling.2.1 "/root" rfl⟩,
   C7_cd_tilde_handling.2.2.1 "/root" "docs" [],
   C7_cd_tilde_handling.2.2.2.2.1 [] (some "/root")⟩

/-! ## internal/completion: shared model environment

The completion engine reads the file system, the PATH directories and the
home directory.  They are modelled as fixed lookup tables: a directory maps
to its entry list (a directory absent from the table is unreadable), an
entry carries its name, directory flag and permission bits (`none` models a
failing `Info()` call). -/

/-- One `fs.DirEntry` of the model file system. -/
structure DirEntry where
  name : String
  isDir : Bool
  mode : Option Nat
deriving DecidableEq

/-- The completion-relevant fields of `config.Config`. -/
structure CompConfig where
  completionEnabled : Bool
  completionCaseInsensitive : Bool
  completionShowHidden : Bool
  gitEnabled : Bool
  aliases : List (String × String)
  pathDirs : List String

/-- The ambient environment: file system table and home directory. -/
structure Env where
  fs : List (String × List DirEntry)
  home : Option String

/-- Model of `os.ReadDir`: directories absent from the table fail. -/
def readDir (fs : List (String × List DirEntry)) (dir : String) :
    Except String (List DirEntry) :=
  match lookupAssoc fs dir with
  | some entries => .ok entries
  | none => .error "read directory failed"

/-- The builtin command names of `Manager.completeCommand`. -/
def builtinsList : List String :=
  ["cd", "pwd", "exit", "help", "history", "alias", "export"]

/-- The git subcommand table of `Manager.completeGitSubcommands`. -/
def gitSubcommandsList : List String :=
  ["add", "branch", "checkout", "clone", "commit", "diff", "fetch",
   "init", "log", "merge", "pull", "push", "rebase", "remote",
   "reset", "show", "status", "switch", "tag"]

/-- The `MinTokensForCompletion` constant of the first completion copy. -/
def MinTokensForCompletion : Nat := 2

/-! ## internal/completion: the Manager, first copy -/

/-- Model of `Manager.isExecutable`: not a directory, a readable `Info()`,
and at least one execute permission bit set. -/
def isExecutable (e : DirEntry) : Bool :=
  if e.isDir then false
  else
    match e.mode with
    | none => false
    | some m => decide ((m &&& 0o111) ≠ 0)

/-- The inner entry loop of `Manager.completeFromPath` over one directory:
skip on prefix mismatch, skip already-seen names, record executable names.
Returns the produced completions and the updated seen set. -/
def scanDirEntries (pfx : String) (seen : List String) :
    List DirEntry → List String × List String
  | [] => ([], seen)
  | e :: es =>
    if !strStartsWith e.name pfx then scanDirEntries pfx seen es
    else if seen.contains e.name then scanDirEntries pfx seen es
    else if isExecutable e then
      let r := scanDirEntries pfx (e.name :: seen) es
      (e.name :: r.1, r.2)
    else scanDirEntries pfx seen es

/-- The outer directory loop of `Manager.completeFromPath`: skip empty PATH
components, silently skip unreadable directories, thread the seen set. -/
def completeFromPathAux (fs : List (String × List DirEntry)) (pfx : String) :
    List String → List String → List String × List String
  | [], seen => ([], seen)
  | dir :: dirs, seen =>
    if dir = "" then completeFromPathAux fs pfx dirs seen
    else
      match lookupAssoc fs dir with
      | none => completeFromPathAux fs pfx dirs seen
      | some entries =>
        let r1 := scanDirEntries pfx seen entries
        let r2 := completeFromPathAux fs pfx dirs r1.2
        (r1.1 ++ r2.1, r2.2)

/-- Model of `Manager.completeFromPath` (first copy, plain slice result). -/
def completeFromPath (cfg : CompConfig) (env : Env) (pfx : String) : List String :=
  (completeFromPathAux env.fs pfx cfg.pathDirs []).1

/-- The seen-map loop of `Manager.removeDuplicates`. -/
def goRemDup (seen : List String) : List String → List String
  | [] => []
  | x :: xs => if seen.contains x then goRemDup seen xs else x :: goRemDup (x :: seen) xs

/-- Model of `Manager.removeDuplicates`: keep first occurrences. -/
def removeDuplicates (l : List String) : List String := goRemDup [] l

/-- Model of `Manager.completeCommand` (first copy): builtins, alias keys
and PATH executables filtered by prefix, deduplicated, sorted. -/
def completeCommand (cfg : CompConfig) (env : Env) (pfx : String) :
    Except String (List String) :=
  let fromBuiltins := builtinsList.filter (fun b => strStartsWith b pfx)
  let fromAliases := (cfg.aliases.map Prod.fst).filter (fun a => strStartsWith a pfx)
  let fromPath := completeFromPath cfg env pfx
  .ok (goSortStrings (removeDuplicates (fromBuiltins ++ fromAliases ++ fromPath)))

/-- Model of `Manager.parseFilePrefix`: directory and filename part. -/
def parseFilePfx (pfx : String) : String × String :=
  if strContainsChar pfx '/' then (goDir pfx, goBase pfx) else (".", pfx)

/-- Model of `Manager.matchesPrefix` (case sensitivity configurable). -/
def matchesPfx (cfg : CompConfig) (name filePfx : String) : Bool :=
  if cfg.completionCaseInsensitive then
    strStartsWith name.toLower filePfx.toLower
  else strStartsWith name filePfx

/-- Model of `Manager.buildCompletion`. -/
def buildCompletion (name dir : String) : String :=
  if dir = "." then name else goJoin2 dir name

/-- Model of `Manager.processFileEntry`: empty string signals a skipped
entry, as in the source. -/
def processFileEntry (cfg : CompConfig) (e : DirEntry) (filePfx dir : String) : String :=
  if !cfg.completionShowHidden && strStartsWith e.name "." then ""
  else if !matchesPfx cfg e.name filePfx then ""
  else
    let completion := buildCompletion e.name dir
    if e.isDir then completion ++ "/" else completion

/-- Model of `Manager.completeFile` (first copy). -/
def completeFile (cfg : CompConfig) (env : Env) (pfx : String) :
    Except String (List String) :=
  let dp := parseFilePfx pfx
  match expandHomeDirectory env.home dp.1 with
  | .error e => .error e
  | .ok exdir =>
    match readDir env.fs exdir with
    | .error e => .error e
    | .ok entries =>
      .ok (goSortStrings (entries.filterMap (fun e =>
        let c := processFileEntry cfg e dp.2 exdir
        if c = "" then none else some c)))

/-- Model of `Manager.getLastTokenPrefix`. -/
def getLastTokenPfx (tokens : List String) : String :=
  if tokens.length > MinTokensForCompletion then tokens.getLastD "" else ""

/-- Model of `Manager.filterCompletionsByPrefix`. -/
def filterCompletionsByPfx (options : List String) (pfx : String) : List String :=
  options.filter (fun o => strStartsWith o pfx)

/-- Model of `Manager.completeGitSubcommands`. -/
def completeGitSubcommands (pfx : String) : Except String (List String) :=
  .ok (gitSubcommandsList.filter (fun c => strStartsWith c pfx))

/-- Model of `Manager.completeGitBranches` (first copy). -/
def completeGitBranches (cfg : CompConfig) (tokens : List String) :
    Except String (List String) :=
  if cfg.gitEnabled then
    let branches := ["main", "master", "develop", "feature/", "bugfix/", "hotfix/"]
    let pfx := if tokens.length > MinTokensForCompletion then tokens.getLastD "" else ""
    .ok (branches.filter (fun b => strStartsWith b pfx))
  else .ok []

/-- Model of `Manager.completeGitModifiedFiles` (first copy). -/
def completeGitModifiedFiles (cfg : CompConfig) (env : Env) (tokens : List String) :
    Except String (List String) :=
  let pfx := if tokens.length > MinTokensForCompletion then tokens.getLastD "" else ""
  completeFile cfg env pfx

/-- Model of `Manager.completeGitCommitOptions` (first copy). -/
def completeGitCommitOptions (tokens : List String) : Except String (List String) :=
  .ok (filterCompletionsByPfx ["-m", "--message", "-a", "--all", "--amend", "-v", "--verbose"]
    (getLastTokenPfx tokens))

/-- Model of `Manager.completeGitRemotes` (first copy). -/
def completeGitRemotes (tokens : List String) : Except String (List String) :=
  .ok (filterCompletionsByPfx ["origin", "upstream"] (getLastTokenPfx tokens))

/-- Model of `Manager.completeGitRemoteSubcommands` (first copy). -/
def completeGitRemoteSubcommands (tokens : List String) : Except String (List String) :=
  .ok (filterCompletionsByPfx ["add", "remove", "rename", "show", "prune", "update"]
    (getLastTokenPfx tokens))

/-- Model of `Manager.completeGitRefs` (first copy). -/
def completeGitRefs (tokens : List String) : Except String (List String) :=
  .ok (filterCompletionsByPfx
    ["HEAD", "main", "master", "develop", "origin/main", "origin/master"]
    (getLastTokenPfx tokens))

/-- Model of `Manager.completeGit` (first copy): dispatch on the git
subcommand. -/
def completeGit (cfg : CompConfig) (env : Env) (tokens : List String)
    (cursorPos : Nat) (input : String) : Except String (List String) :=
  if tokens.length < MinTokensForCompletion then completeGitSubcommands ""
  else
    let subcommand := tokens.getD 1 ""
    if tokens.length = 2 && !strEndsWith (strTake input cursorPos) " " then
      completeGitSubcommands subcommand
    else if subcommand = "checkout" || subcommand = "co" || subcommand = "switch" then
      completeGitBranches cfg tokens
    else if subcommand = "branch" then completeGitBranches cfg tokens
    else if subcommand = "merge" then completeGitBranches cfg tokens
    else if subcommand = "add" then completeGitModifiedFiles cfg env tokens
    else if subcommand = "commit" then completeGitCommitOptions tokens
    else if subcommand = "push" || subcommand = "pull" then completeGitRemotes tokens
    else if subcommand = "remote" then completeGitRemoteSubcommands tokens
    else if subcommand = "log" || subcommand = "show" || subcommand = "diff" then
      completeGitRefs tokens
    else completeFile cfg env (tokens.getLastD "")

/-- Model of `Manager.Complete` (first copy): classify the input before the
cursor and dispatch to a completer. -/
def Complete (cfg : CompConfig) (env : Env) (input : String) (cursorPos : Nat) :
    Except String (List String) :=
  if !cfg.completionEnabled then .ok []
  else
    let pre := strTake input cursorPos
    let tokens := goFields pre
    if tokens.isEmpty then completeCommand cfg env ""
    else if tokens.length = 1 && !strEndsWith pre " " then
      completeCommand cfg env (tokens.headD "")
    else if tokens.headD "" = "git" then completeGit cfg env tokens cursorPos input
    else completeFile cfg env (tokens.getLastD "")

/-! ## internal/shell: shellCompleter.Do -/

/-- The backward word-start scan of `shellCompleter.Do`: step left from the
cursor until a space or tab (or the line start) is found. -/
def goWordStart (line : List Char) : Nat → Nat
  | 0 => 0
  | i + 1 =>
    let c := line.getD i (Char.ofNat 0)
    if c = ' ' || c = '\t' then i + 1 else goWordStart line i

/-- Model of `shellCompleter.Do`: run `Complete`, reduce each candidate that
starts with the current word to its suffix beyond that word, and report the
current word's length as the replacement length. -/
def shellDo (cfg : CompConfig) (env : Env) (line : String) (pos : Nat) :
    List String × Nat :=
  match Complete cfg env line pos with
  | .error _ => ([], 0)
  | .ok completions =>
    if completions.isEmpty then ([], 0)
    else
      let ws := goWordStart line.data pos
      let currentWord : String := ⟨(line.data.take pos).drop ws⟩
      let result := completions.map (fun c =>
        if strStartsWith c currentWord then strDrop c currentWord.length else c)
      (result, currentWord.length)

/-- C1: on `git st` with the cursor at 6 the entry point classifies the
input as git-subcommand completion, reports replacement length 2 (the
typed word `st`), and hands the consumer the suffix `atus`, so the line
completes to exactly `git status` and never `git ststatus`; on `git sta`
with cursor 7 the replacement length is 3 and the completion resolves to
`status`. -/
theorem C1_git_subcommand_completion :
    ∀ (cfg : CompConfig) (env : Env), cfg.completionEnabled = true →
      Complete cfg env "git st" 6 = completeGitSubcommands "st"
      ∧ completeGitSubcommands "st" = .ok ["status"]
      ∧ shellDo cfg env "git st" 6 = (["atus"], 2)
      ∧ strTake "git st" 6 ++ "atus" = "git status"
      ∧ strTake "git st" (6 - 2) ++ "status" = "git status"
      ∧ ("git status" : String) ≠ "git ststatus"
      ∧ Complete cfg env "git sta" 7 = completeGitSubcommands "sta"
      ∧ completeGitSubcommands "sta" = .ok ["status"]
      ∧ shellDo cfg env "git sta" 7 = (["tus"], 3) := by
  intro cfg env h
  refine ⟨?_, rfl, ?_, rfl, rfl, by decide, ?_, rfl, ?_⟩
  · simp only [Complete, h]; rfl
  · simp only [shellDo, Complete, h]; rfl
  · simp only [Complete, h]; rfl
  · simp only [shellDo, Complete, h]; rfl

/-- A concrete configuration used by closed witnesses. -/
def witnessCfg : CompConfig :=
  ⟨true, true, false, true, [("ll", "ls -la")], ["/bin", "", "/missing"]⟩

/-- A concrete environment used by closed witnesses. -/
def witnessEnv : Env :=
  ⟨[("/bin", [⟨"git", false, some 0o755⟩, ⟨"gdb", false, some 0o644⟩,
      ⟨"sub", true, some 0o755⟩]),
    (".", [⟨"readme.md", false, some 0o644⟩, ⟨"src", true, some 0o755⟩])],
   some "/root"⟩

/-- Closed instance of C1 at a concrete configuration. -/
theorem C1_witness :
    witnessCfg.completionEnabled = true
    ∧ shellDo witnessCfg witnessEnv "git st" 6 = (["atus"], 2)
    ∧ shellDo witnessCfg witnessEnv "git sta" 7 = (["tus"], 3) :=
  ⟨rfl, (C1_git_subcommand_completion witnessCfg witnessEnv rfl).2.2.1,
   (C1_git_subcommand_completion witnessCfg witnessEnv rfl).2.2.2.2.2.2.2.2⟩

/-! ## C8: the command-completion candidate set -/

/-- The names of the executable non-directory entries of one directory. -/
def dirExecNames (es : List DirEntry) : List String :=
  (es.filter (fun e => isExecutable e)).map DirEntry.name

/-- The executable names found along the PATH list, in scan order, with
duplicates still present; empty components and unreadable directories
contribute nothing. -/
def rawPathExecNames (fs : List (String × List DirEntry)) : List String → List String
  | [] => []
  | dir :: dirs =>
    (if dir = "" then []
     else
       match lookupAssoc fs dir with
       | none => []
       | some es => dirExecNames es) ++ rawPathExecNames fs dirs

/-- The seen set left behind by `goRemDup`. -/
def remDupSeen (seen : List String) : List String → List String
  | [] => seen
  | x :: xs => if seen.contains x then remDupSeen seen xs else remDupSeen (x :: seen) xs

theorem scanDirEntries_eq (pfx : String) : ∀ (es : List DirEntry) (seen : List String),
    scanDirEntries pfx seen es =
      (goRemDup seen ((dirExecNames es).filter (fun n => strStartsWith n pfx)),
       remDupSeen seen ((dirExecNames es).filter (fun n => strStartsWith n pfx))) := by
  intro es
  induction es with
  | nil => intro seen; rfl
  | cons e es ih =>
    intro seen
    by_cases hexec : isExecutable e
    · by_cases hpfx : strStartsWith e.name pfx
      · by_cases hseen : e.name ∈ seen
        · simp [scanDirEntries, dirExecNames, List.filter_cons, hexec, hpfx, hseen,
            goRemDup, remDupSeen, ih, dirExecNames]
        · simp [scanDirEntries, dirExecNames, List.filter_cons, hexec, hpfx, hseen,
            goRemDup, remDupSeen, ih, dirExecNames]
      · simp [scanDirEntries, dirExecNames, List.filter_cons, hexec, hpfx, ih, dirExecNames]
    · by_cases hpfx : strStartsWith e.name pfx
      · by_cases hseen : e.name ∈ seen
        · simp [scanDirEntries, dirExecNames, List.filter_cons, hexec, hpfx, hseen, ih]
        · simp [scanDirEntries, dirExecNames, List.filter_cons, hexec, hpfx, hseen, ih]
      · simp [scanDirEntries, dirExecNames, List.filter_cons, hexec, hpfx, ih]

theorem goRemDup_append : ∀ (a b seen : List String),
    goRemDup seen (a ++ b) = goRemDup seen a ++ goRemDup (remDupSeen seen a) b := by
  intro a
  induction a with
  | nil => intro b seen; rfl
  | cons x xs ih =>
    intro b seen
    by_cases hx : x ∈ seen <;> simp [goRemDup, remDupSeen, hx, ih]

theorem remDupSeen_append : ∀ (a b seen : List String),
    remDupSeen seen (a ++ b) = remDupSeen (remDupSeen seen a) b := by
  intro a
  induction a with
  | nil => intro b seen; rfl
  | cons x xs ih =>
    intro b seen
    by_cases hx : x ∈ seen <;> simp [remDupSeen, hx, ih]

theorem completeFromPathAux_eq (fs : List (String × List DirEntry)) (pfx : String) :
    ∀ (dirs : List String) (seen : List String),
    completeFromPathAux fs pfx dirs seen =
      (goRemDup seen ((rawPathExecNames fs dirs).filter (fun n => strStartsWith n pfx)),
       remDupSeen seen ((rawPathExecNames fs dirs).filter (fun n => strStartsWith n pfx))) := by
  intro dirs
  induction dirs with
  | nil => intro seen; rfl
  | cons dir dirs ih =>
    intro seen
    by_cases hdir : dir = ""
    · simp [completeFromPathAux, rawPathExecNames, hdir, ih]
    · cases hlk : lookupAssoc fs dir with
      | none => simp [completeFromPathAux, rawPathExecNames, hdir, hlk, ih]
      | some es =>
        simp [completeFromPathAux, rawPathExecNames, hdir, hlk, List.filter_append,
          goRemDup_append, remDupSeen_append, scanDirEntries_eq, ih]

theorem goRemDup_filter_congr (q : String → Bool) :
    ∀ (l s1 s2 : List String),
    (∀ z, q z = true → (z ∈ s1 ↔ z ∈ s2)) →
    (goRemDup s1 l).filter q = (goRemDup s2 l).filter q := by
  intro l
  induction l with
  | nil => intro s1 s2 _; rfl
  | cons x xs ih =>
    intro s1 s2 hagree
    by_cases hx : q x = true
    · by_cases h1 : x ∈ s1
      · have h2 : x ∈ s2 := (hagree x hx).mp h1
        simp only [goRemDup]
        rw [if_pos (by simp [h1]), if_pos (by simp [h2])]
        exact ih s1 s2 hagree
      · have h2 : x ∉ s2 := fun hm => h1 ((hagree x hx).mpr hm)
        simp only [goRemDup]
        rw [if_neg (by simp [h1]), if_neg (by simp [h2])]
        rw [List.filter_cons, List.filter_cons]
        simp only [hx, if_true]
        rw [ih (x :: s1) (x :: s2) (fun z hz => by simp [List.mem_cons, hagree z hz])]
    · have hx2 : q x = false := by simpa using hx
      by_cases h1 : x ∈ s1 <;> by_cases h2 : x ∈ s2
      · simp only [goRemDup]
        rw [if_pos (by simp [h1]), if_pos (by simp [h2])]
        exact ih s1 s2 hagree
      · simp only [goRemDup]
        rw [if_pos (by simp [h1]), if_neg (by simp [h2])]
        have hrec := ih s1 (x :: s2) ?_
        · rw [List.filter_cons]
          simp only [hx2, Bool.false_eq_true, if_false]
          exact hrec
        · intro z hz
          have hzx : z ≠ x := by
            intro he
            rw [he, hx2] at hz
            exact Bool.noConfusion hz
          simp [List.mem_cons, hzx, hagree z hz]
      · simp only [goRemDup]
        rw [if_neg (by simp [h1]), if_pos (by simp [h2])]
        have hrec := ih (x :: s1) s2 ?_
        · rw [List.filter_cons]
          simp only [hx2, Bool.false_eq_true, if_false]
          exact hrec
        · intro z hz
          have hzx : z ≠ x := by
            intro he
            rw [he, hx2] at hz
            exact Bool.noConfusion hz
          simp [List.mem_cons, hzx, hagree z hz]
      · simp only [goRemDup]
        rw [if_neg (by simp [h1]), if_neg (by simp [h2])]
        have hrec := ih (x :: s1) (x :: s2)
          (fun z hz => by simp [List.mem_cons, hagree z hz])
        rw [List.filter_cons, List.filter_cons]
        simp only [hx2, Bool.false_eq_true, if_false]
        exact hrec

theorem goRemDup_filter_comm (q : String → Bool) :
    ∀ (l seen : List String),
    goRemDup seen (l.filter q) = (goRemDup seen l).filter q := by
  intro l
  induction l with
  | nil => intro seen; rfl
  | cons x xs ih =>
    intro seen
    by_cases hx : q x = true
    · by_cases hs : x ∈ seen
      · rw [List.filter_cons]
        simp only [hx, if_true]
        simp only [goRemDup]
        rw [if_pos (by simp [hs]), if_pos (by simp [hs])]
        exact ih seen
      · rw [List.filter_cons]
        simp only [hx, if_true]
        simp only [goRemDup]
        rw [if_neg (by simp [hs]), if_neg (by simp [hs])]
        rw [List.filter_cons]
        simp only [hx, if_true]
        rw [ih (x :: seen)]
    · have hx2 : q x = false := by simpa using hx
      by_cases hs : x ∈ seen
      · rw [List.filter_cons]
        simp only [hx2, Bool.false_eq_true, if_false]
        simp only [goRemDup]
        rw [if_pos (by simp [hs])]
        exact ih seen
      · rw [List.filter_cons]
        simp only [hx2, Bool.false_eq_true, if_false]
        simp only [goRemDup]
        rw [if_neg (by simp [hs])]
        rw [List.filter_cons]
        simp only [hx2, Bool.false_eq_true, if_false]
        rw [ih seen]
        refine goRemDup_filter_congr q xs seen (x :: seen) ?_
        intro z hz
        have hzx : z ≠ x := by
          intro he
          rw [he, hx2] at hz
          exact Bool.noConfusion hz
        simp [List.mem_cons, hzx]

/-- C8: for every prefix, the command-completion candidate list equals the
union of builtin names, alias keys and the executable non-directory names
scanned from the PATH directories (unreadable directories skipped silently,
cross-directory duplicates kept once), restricted to candidates starting
with the prefix, deduplicated and sorted lexicographically. -/
theorem C8_command_completion_set :
    (∀ (cfg : CompConfig) (env : Env) (pfx : String),
      completeCommand cfg env pfx =
        .ok (goSortStrings (removeDuplicates (
          (builtinsList ++ cfg.aliases.map Prod.fst ++
            removeDuplicates (rawPathExecNames env.fs cfg.pathDirs)).filter
            (fun s => strStartsWith s pfx)))))
    ∧ (∀ (fs : List (String × List DirEntry)) (dir : String) (dirs : List String),
        dir ≠ "" → lookupAssoc fs dir = none →
        rawPathExecNames fs (dir :: dirs) = rawPathExecNames fs dirs) := by
  constructor
  · intro cfg env pfx
    unfold completeCommand
    congr 1
    congr 1
    unfold removeDuplicates
    congr 1
    rw [List.filter_append, List.filter_append]
    unfold completeFromPath
    rw [completeFromPathAux_eq]
    rw [goRemDup_filter_comm]
  · intro fs dir dirs hne hlk
    simp [rawPathExecNames, hne, hlk]

/-- Closed instance of the conditional part of C8. -/
theorem C8_witness :
    "/missing" ≠ "" ∧ lookupAssoc witnessEnv.fs "/missing" = none
    ∧ rawPathExecNames witnessEnv.fs ["/missing", "/bin"] =
        rawPathExecNames witnessEnv.fs ["/bin"] :=
  ⟨by simp, rfl,
   C8_command_completion_set.2 witnessEnv.fs "/missing" ["/bin"] (by simp) rfl⟩

/-! ## C9: the common-prefix computation (`Manager.GetCommonPrefix`) -/

/-- The character-by-character comparison loop of `Manager.commonPrefix`:
stop at the first mismatch or at the end of the shorter string. -/
def commonPfxChars : List Char → List Char → List Char
  | [], _ => []
  | _ :: _, [] => []
  | a :: as, b :: bs => if a = b then a :: commonPfxChars as bs else []

/-- Model of `Manager.commonPrefix`. -/
def commonPfx (a b : String) : String := ⟨commonPfxChars a.data b.data⟩

/-- The reduction loop of `Manager.GetCommonPrefix`, with its early exit
once the running prefix becomes empty. -/
def getCommonPfxLoop (pfx : String) : List String → String
  | [] => pfx
  | y :: ys =>
    let p2 := commonPfx pfx y
    if p2 = "" then "" else getCommonPfxLoop p2 ys

/-- Model of `Manager.GetCommonPrefix`: empty list gives the empty string,
a singleton gives its element, otherwise reduce pairwise. -/
def getCommonPfx : List String → String
  | [] => ""
  | [x] => x
  | x :: y :: ys => getCommonPfxLoop x (y :: ys)

theorem commonPfxChars_prefix_left : ∀ a b : List Char, commonPfxChars a b <+: a := by
  intro a
  induction a with
  | nil => intro b; cases b <;> simp [commonPfxChars]
  | cons c cs ih =>
    intro b
    cases b with
    | nil => simp [commonPfxChars]
    | cons d ds =>
      by_cases h : c = d
      · simpa [commonPfxChars, h] using ih ds
      · simp [commonPfxChars, h]

theorem commonPfxChars_prefix_right : ∀ a b : List Char, commonPfxChars a b <+: b := by
  intro a
  induction a with
  | nil => intro b; cases b <;> simp [commonPfxChars]
  | cons c cs ih =>
    intro b
    cases b with
    | nil => simp [commonPfxChars]
    | cons d ds =>
      by_cases h : c = d
      · subst h; simpa [commonPfxChars] using ih ds
      · simp [commonPfxChars, h]

theorem prefix_commonPfxChars : ∀ (a b p : List Char),
    p <+: a → p <+: b → p <+: commonPfxChars a b := by
  intro a
  induction a with
  | nil =>
    intro b p ha _
    have := List.prefix_nil.mp ha
    simp [this]
  | cons c cs ih =>
    intro b p ha hb
    cases p with
    | nil => simp
    | cons e es =>
      cases b with
      | nil => exact absurd (List.prefix_nil.mp hb) (by simp)
      | cons d ds =>
        rw [List.cons_prefix_cons] at ha hb
        obtain ⟨rfl, ha2⟩ := ha
        obtain ⟨hed, hb2⟩ := hb
        simp only [commonPfxChars, ← hed]
        rw [if_pos trivial]
        exact List.cons_prefix_cons.mpr ⟨rfl, ih ds es ha2 hb2⟩

theorem string_eq_empty_iff_data (s : String) : s = "" ↔ s.data = [] := by
  constructor
  · intro h; rw [h]
  · intro h
    cases s with
    | mk d => cases h; rfl

theorem getCommonPfxLoop_prefix : ∀ (ys : List String) (pfx : String),
    ((getCommonPfxLoop pfx ys).data <+: pfx.data)
    ∧ (∀ y ∈ ys, (getCommonPfxLoop pfx ys).data <+: y.data) := by
  intro ys
  induction ys with
  | nil => intro pfx; exact ⟨List.prefix_refl _, by simp⟩
  | cons y ys ih =>
    intro pfx
    by_cases h : commonPfx pfx y = ""
    · simp only [getCommonPfxLoop, h, if_pos]
      exact ⟨by simp, by intro z _; simp⟩
    · simp only [getCommonPfxLoop, h, if_neg, if_false]
      have hrec := ih (commonPfx pfx y)
      have hleft : (commonPfx pfx y).data <+: pfx.data := commonPfxChars_prefix_left _ _
      have hright : (commonPfx pfx y).data <+: y.data := commonPfxChars_prefix_right _ _
      refine ⟨hrec.1.trans hleft, ?_⟩
      intro z hz
      rcases List.mem_cons.mp hz with hz1 | hz2
      · rw [hz1]; exact hrec.1.trans hright
      · exact hrec.2 z hz2

theorem getCommonPfxLoop_longest : ∀ (ys : List String) (pfx q : String),
    q.data <+: pfx.data → (∀ y ∈ ys, q.data <+: y.data) →
    q.data <+: (getCommonPfxLoop pfx ys).data := by
  intro ys
  induction ys with
  | nil => intro pfx q hq _; exact hq
  | cons y ys ih =>
    intro pfx q hq hys
    have hq2 : q.data <+: (commonPfx pfx y).data :=
      prefix_commonPfxChars pfx.data y.data q.data hq (hys y (by simp))
    by_cases h : commonPfx pfx y = ""
    · simp only [getCommonPfxLoop, h, if_pos]
      have : (commonPfx pfx y).data = [] := (string_eq_empty_iff_data _).mp h
      rw [this] at hq2
      simpa using hq2
    · simp only [getCommonPfxLoop, h, if_neg, if_false]
      exact ih (commonPfx pfx y) q hq2 (fun z hz => hys z (by simp [hz]))

/-- C9: the common-prefix computation returns the empty string on the empty
list, the sole element on a singleton, and on every non-empty list a string
that is a prefix of every candidate and of which every common prefix of the
candidates is a prefix (i.e. the longest common prefix), matching the
concrete examples. -/
theorem C9_get_common_prefix_spec :
    getCommonPfx [] = ""
    ∧ (∀ x : String, getCommonPfx [x] = x)
    ∧ getCommonPfx ["test1", "test2", "test3"] = "test"
    ∧ getCommonPfx ["abc", "def"] = ""
    ∧ (∀ (l : List String) (x : String), x ∈ l → (getCommonPfx l).data <+: x.data)
    ∧ (∀ (x : String) (rest : List String) (q : String),
        (∀ y ∈ x :: rest, q.data <+: y.data) →
        q.data <+: (getCommonPfx (x :: rest)).data) := by
  refine ⟨rfl, fun x => rfl, rfl, rfl, ?_, ?_⟩
  · intro l x hx
    match l with
    | [] => cases hx
    | [x0] =>
      rcases List.mem_singleton.mp hx with rfl
      exact List.prefix_refl _
    | x0 :: y :: ys =>
      have hloop := getCommonPfxLoop_prefix (y :: ys) x0
      rcases List.mem_cons.mp hx with hx1 | hx2
      · rw [hx1]; exact hloop.1
      · exact hloop.2 x hx2
  · intro x rest q hq
    match rest with
    | [] => exact hq x (by simp)
    | y :: ys =>
      exact getCommonPfxLoop_longest (y :: ys) x q (hq x (by simp))
        (fun z hz => hq z (by simp [hz]))

/-- Closed instance of the conditional parts of C9. -/
theorem C9_witness :
    ("te" ∈ (["test", "te"] : List String)
      ∧ (getCommonPfx ["test", "te"]).data <+: ("te").data)
    ∧ ((∀ y ∈ (["test", "te"] : List String), ("t").data <+: y.data)
      ∧ ("t").data <+: (getCommonPfx ["test", "te"]).data) :=
  ⟨⟨by simp, C9_get_common_prefix_spec.2.2.2.2.1 ["test", "te"] "te" (by simp)⟩,
   ⟨by decide, C9_get_common_prefix_spec.2.2.2.2.2 "test" ["te"] "t" (by decide)⟩⟩

/-! ## internal/completion: the Manager, second copy

The source tree carries a second, inline-style copy of the completion
package.  It is embedded separately (suffix `2`) so that the two copies can
be compared; shared Go standard-library models (`strings`, `sort`,
`filepath`, `os.ReadDir`) are the same definitions. -/

/-- The inner entry loop of the second copy of `completeFromPath`. -/
def scanDirEntries2 (pfx : String) (seen : List String) :
    List DirEntry → List String × List String
  | [] => ([], seen)
  | e :: es =>
    if !strStartsWith e.name pfx then scanDirEntries2 pfx seen es
    else if seen.contains e.name then scanDirEntries2 pfx seen es
    else if isExecutable e then
      let r := scanDirEntries2 pfx (e.name :: seen) es
      (e.name :: r.1, r.2)
    else scanDirEntries2 pfx seen es

/-- The outer directory loop of the second copy of `completeFromPath`. -/
def completeFromPathAux2 (fs : List (String × List DirEntry)) (pfx : String) :
    List String → List String → List String × List String
  | [], seen => ([], seen)
  | dir :: dirs, seen =>
    if dir = "" then completeFromPathAux2 fs pfx dirs seen
    else
      match lookupAssoc fs dir with
      | none => completeFromPathAux2 fs pfx dirs seen
      | some entries =>
        let r1 := scanDirEntries2 pfx seen entries
        let r2 := completeFromPathAux2 fs pfx dirs r1.2
        (r1.1 ++ r2.1, r2.2)

/-- Model of `Manager.completeFromPath` (second copy: returns an error
value, always nil). -/
def completeFromPath2 (cfg : CompConfig) (env : Env) (pfx : String) :
    Except String (List String) :=
  .ok (completeFromPathAux2 env.fs pfx cfg.pathDirs []).1

/-- The seen-map loop of the second copy of `removeDuplicates`. -/
def goRemDup2 (seen : List String) : List String → List String
  | [] => []
  | x :: xs => if seen.contains x then goRemDup2 seen xs else x :: goRemDup2 (x :: seen) xs

/-- Model of `Manager.removeDuplicates` (second copy). -/
def removeDuplicates2 (l : List String) : List String := goRemDup2 [] l

/-- Model of `Manager.completeCommand` (second copy: appends the PATH scan
only when its error value is nil). -/
def completeCommand2 (cfg : CompConfig) (env : Env) (pfx : String) :
    Except String (List String) :=
  let fromBuiltins := (["cd", "pwd", "exit", "help", "history", "alias", "export"]
    : List String).filter (fun b => strStartsWith b pfx)
  let fromAliases := (cfg.aliases.map Prod.fst).filter (fun a => strStartsWith a pfx)
  match completeFromPath2 cfg env pfx with
  | .ok pathCompletions =>
    .ok (goSortStrings (removeDuplicates2 (fromBuiltins ++ fromAliases ++ pathCompletions)))
  | .error _ =>
    .ok (goSortStrings (removeDuplicates2 (fromBuiltins ++ fromAliases)))

/-- Model of `Manager.completeFile` (second copy, fully inline). -/
def completeFile2 (cfg : CompConfig) (env : Env) (pfx : String) :
    Except String (List String) :=
  let dir := if strContainsChar pfx '/' then goDir pfx else "."
  let filePfx := if strContainsChar pfx '/' then goBase pfx else pfx
  match (if strStartsWith dir "~/" then
           match env.home with
           | none => Except.error "user home directory not found"
           | some h => Except.ok (goJoin2 h (strDrop dir 2))
         else if dir = "~" then
           match env.home with
           | none => Except.error "user home directory not found"
           | some h => Except.ok h
         else Except.ok dir) with
  | .error e => .error e
  | .ok dir2 =>
    match readDir env.fs dir2 with
    | .error e => .error e
    | .ok entries =>
      .ok (goSortStrings (entries.filterMap (fun e =>
        if !cfg.completionShowHidden && strStartsWith e.name "." then none
        else if !(if cfg.completionCaseInsensitive then
                    strStartsWith e.name.toLower filePfx.toLower
                  else strStartsWith e.name filePfx) then none
        else
          let completion :=
            if dir2 = "." then e.name
            else if strStartsWith pfx "/" || strStartsWith pfx "~/" then
              goJoin2 dir2 e.name
            else goJoin2 dir2 e.name
          some (if e.isDir then completion ++ "/" else completion))))

/-- Model of `Manager.completeGitSubcommands` (second copy). -/
def completeGitSubcommands2 (pfx : String) : Except String (List String) :=
  .ok ((["add", "branch", "checkout", "clone", "commit", "diff", "fetch",
    "init", "log", "merge", "pull", "push", "rebase", "remote",
    "reset", "show", "status", "switch", "tag"] : List String).filter
    (fun c => strStartsWith c pfx))

/-- Model of `Manager.completeGitBranches` (second copy). -/
def completeGitBranches2 (cfg : CompConfig) (tokens : List String) :
    Except String (List String) :=
  if cfg.gitEnabled then
    let branches := ["main", "master", "develop", "feature/", "bugfix/", "hotfix/"]
    let pfx := if tokens.length > 2 then tokens.getLastD "" else ""
    .ok (branches.filter (fun b => strStartsWith b pfx))
  else .ok []

/-- Model of `Manager.completeGitModifiedFiles` (second copy). -/
def completeGitModifiedFiles2 (cfg : CompConfig) (env : Env) (tokens : List String) :
    Except String (List String) :=
  let pfx := if tokens.length > 2 then tokens.getLastD "" else ""
  completeFile2 cfg env pfx

/-- Model of `Manager.completeGitCommitOptions` (second copy). -/
def completeGitCommitOptions2 (tokens : List String) : Except String (List String) :=
  let pfx := if tokens.length > 2 then tokens.getLastD "" else ""
  .ok ((["-m", "--message", "-a", "--all", "--amend", "-v", "--verbose"]
    : List String).filter (fun o => strStartsWith o pfx))

/-- Model of `Manager.completeGitRemotes` (second copy). -/
def completeGitRemotes2 (tokens : List String) : Except String (List String) :=
  let pfx := if tokens.length > 2 then tokens.getLastD "" else ""
  .ok ((["origin", "upstream"] : List String).filter (fun r => strStartsWith r pfx))

/-- Model of `Manager.completeGitRemoteSubcommands` (second copy). -/
def completeGitRemoteSubcommands2 (tokens : List String) : Except String (List String) :=
  let pfx := if tokens.length > 2 then tokens.getLastD "" else ""
  .ok ((["add", "remove", "rename", "show", "prune", "update"] : List String).filter
    (fun c => strStartsWith c pfx))

/-- Model of `Manager.completeGitRefs` (second copy). -/
def completeGitRefs2 (tokens : List String) : Except String (List String) :=
  let pfx := if tokens.length > 2 then tokens.getLastD "" else ""
  .ok ((["HEAD", "main", "master", "develop", "origin/main", "origin/master"]
    : List String).filter (fun r => strStartsWith r pfx))

/-- Model of `Manager.completeGit` (second copy). -/
def completeGit2 (cfg : CompConfig) (env : Env) (tokens : List String)
    (cursorPos : Nat) (input : String) : Except String (List String) :=
  if tokens.length < 2 then completeGitSubcommands2 ""
  else
    let subcommand := tokens.getD 1 ""
    if tokens.length = 2 && !strEndsWith (strTake input cursorPos) " " then
      completeGitSubcommands2 subcommand
    else if subcommand = "checkout" || subcommand = "co" || subcommand = "switch" then
      completeGitBranches2 cfg tokens
    else if subcommand = "branch" then completeGitBranches2 cfg tokens
    else if subcommand = "merge" then completeGitBranches2 cfg tokens
    else if subcommand = "add" then completeGitModifiedFiles2 cfg env tokens
    else if subcommand = "commit" then completeGitCommitOptions2 tokens
    else if subcommand = "push" || subcommand = "pull" then completeGitRemotes2 tokens
    else if subcommand = "remote" then completeGitRemoteSubcommands2 tokens
    else if subcommand = "log" || subcommand = "show" || subcommand = "diff" then
      completeGitRefs2 tokens
    else completeFile2 cfg env (tokens.getLastD "")

/-- Model of `Manager.Complete` (second copy). -/
def Complete2 (cfg : CompConfig) (env : Env) (input : String) (cursorPos : Nat) :
    Except String (List String) :=
  if !cfg.completionEnabled then .ok []
  else
    let pre := strTake input cursorPos
    let tokens := goFields pre
    if tokens.isEmpty then completeCommand2 cfg env ""
    else if tokens.length = 1 && !strEndsWith pre " " then
      completeCommand2 cfg env (tokens.headD "")
    else if tokens.headD "" = "git" then completeGit2 cfg env tokens cursorPos input
    else completeFile2 cfg env (tokens.getLastD "")

/-- The well-formedness of a model environment: real `os.DirEntry` names
are never empty, so every entry in the file-system table has a non-empty
name. -/
def envWF (env : Env) : Prop :=
  ∀ p ∈ env.fs, ∀ e ∈ p.2, e.name ≠ ""

instance : DecidablePred envWF := fun env => by
  unfold envWF
  infer_instance

/-! ## C10: extensional equality of the two Manager copies -/

theorem scanDirEntries2_eq (pfx : String) : ∀ (es : List DirEntry) (seen : List String),
    scanDirEntries2 pfx seen es = scanDirEntries pfx seen es := by
  intro es
  induction es with
  | nil => intro seen; rfl
  | cons e es ih =>
    intro seen
    simp only [scanDirEntries, scanDirEntries2, ih]

theorem completeFromPathAux2_eq (fs : List (String × List DirEntry)) (pfx : String) :
    ∀ (dirs seen : List String),
    completeFromPathAux2 fs pfx dirs seen = completeFromPathAux fs pfx dirs seen := by
  intro dirs
  induction dirs with
  | nil => intro seen; rfl
  | cons dir dirs ih =>
    intro seen
    simp only [completeFromPathAux, completeFromPathAux2, scanDirEntries2_eq, ih]

theorem goRemDup2_eq : ∀ (l seen : List String), goRemDup2 seen l = goRemDup seen l := by
  intro l
  induction l with
  | nil => intro seen; rfl
  | cons x xs ih =>
    intro seen
    simp only [goRemDup, goRemDup2, ih]

theorem completeCommand2_eq (cfg : CompConfig) (env : Env) (pfx : String) :
    completeCommand2 cfg env pfx = completeCommand cfg env pfx := by
  unfold completeCommand2 completeCommand completeFromPath2 completeFromPath
    removeDuplicates2 removeDuplicates builtinsList
  rw [completeFromPathAux2_eq]
  simp only [goRemDup2_eq]

theorem string_ne_empty_iff_data (s : String) : s ≠ "" ↔ s.data ≠ [] := by
  constructor
  · intro h hcon
    exact h ((string_eq_empty_iff_data s).mpr hcon)
  · intro h hcon
    exact h ((string_eq_empty_iff_data s).mp hcon)

theorem append_slash_ne_empty (s : String) : s ++ "/" ≠ "" := by
  rw [string_ne_empty_iff_data, strData_append]
  simp

theorem cleanStack_no_empty (rooted : Bool) : ∀ (es stack : List String),
    (∀ x ∈ stack, x ≠ "") → ∀ x ∈ cleanStack rooted stack es, x ≠ "" := by
  intro es
  induction es with
  | nil => intro stack hstack; exact hstack
  | cons e es ih =>
    intro stack hstack x hx
    by_cases he : e = "" ∨ e = "."
    · simp only [cleanStack] at hx
      rw [if_pos he] at hx
      exact ih stack hstack x hx
    · by_cases hdd : e = ".."
      · simp only [cleanStack] at hx
        rw [if_neg he, if_pos hdd] at hx
        cases stack with
        | nil =>
          by_cases hr : rooted = true
          · rw [if_pos hr] at hx
            exact ih [] (by simp) x hx
          · rw [if_neg hr] at hx
            refine ih [e] ?_ x hx
            intro z hz
            rcases List.mem_singleton.mp hz with rfl
            rw [hdd]
            simp
        | cons t rest =>
          by_cases ht : t = ".."
          · simp only [ht, if_pos] at hx
            refine ih (e :: ".." :: rest) ?_ x hx
            intro z hz
            rcases List.mem_cons.mp hz with rfl | hz2
            · rw [hdd]; simp
            · rcases List.mem_cons.mp hz2 with rfl | hz3
              · simp
              · exact hstack z (by simp [hz3])
          · simp only [ht, if_neg, if_false] at hx
            refine ih rest ?_ x hx
            intro z hz
            exact hstack z (by simp [hz])
      · simp only [cleanStack] at hx
        rw [if_neg he, if_neg hdd] at hx
        refine ih (e :: stack) ?_ x hx
        intro z hz
        rcases List.mem_cons.mp hz with rfl | hz2
        · intro hcon
          exact he (Or.inl hcon)
        · exact hstack z hz2

theorem joinWithSlash_ne_empty : ∀ l : List String,
    l ≠ [] → (∀ x ∈ l, x ≠ "") → joinWithSlash l ≠ "" := by
  intro l hne hall
  match l with
  | [x] => exact hall x (by simp)
  | x :: y :: ys =>
    show x ++ "/" ++ joinWithSlash (y :: ys) ≠ ""
    rw [string_ne_empty_iff_data, strData_append, strData_append]
    simp

theorem goClean_ne_empty (p : String) : goClean p ≠ "" := by
  unfold goClean
  by_cases hp : p = ""
  · simp [hp]
  · simp only [hp, if_false]
    by_cases hr : strStartsWith p "/" = true
    · simp only [hr, if_pos]
      by_cases hs : (cleanStack true [] (splitSlashAux [] p.data)).reverse.isEmpty
      · simp [hs]
      · simp only [hs, Bool.false_eq_true, if_false]
        rw [string_ne_empty_iff_data, strData_append]
        simp
    · have hr2 : strStartsWith p "/" = false := by simpa using hr
      simp only [hr2, Bool.false_eq_true, if_false]
      by_cases hs : (cleanStack false [] (splitSlashAux [] p.data)).reverse.isEmpty
      · simp [hs]
      · simp only [hs, Bool.false_eq_true, if_false]
        refine joinWithSlash_ne_empty _ (by simpa using hs) ?_
        intro x hx
        exact cleanStack_no_empty false (splitSlashAux [] p.data) [] (by simp) x
          (List.mem_reverse.mp hx)

theorem goJoin2_ne_empty (a b : String) (hb : b ≠ "") : goJoin2 a b ≠ "" := by
  unfold goJoin2
  by_cases hab : a = "" ∧ b = ""
  · exact absurd hab.2 hb
  · simp only [hab, if_false]
    by_cases ha : a = ""
    · simp only [ha, if_pos]
      exact goClean_ne_empty b
    · simp only [ha, if_false]
      by_cases hb2 : b = ""
      · exact absurd hb2 hb
      · simp only [hb2, if_false]
        exact goClean_ne_empty _

theorem lookupAssoc_mem {α : Type} : ∀ (l : List (String × α)) (k : String) (v : α),
    lookupAssoc l k = some v → (k, v) ∈ l := by
  intro l
  induction l with
  | nil => intro k v h; exact absurd h (by simp [lookupAssoc])
  | cons p ps ih =>
    intro k v h
    cases p with
    | mk k0 v0 =>
      by_cases hk : k0 = k
      · rw [lookupAssoc, if_pos hk] at h
        injection h with hv
        rw [← hk, hv]
        simp
      · rw [lookupAssoc, if_neg hk] at h
        exact List.mem_cons_of_mem _ (ih k v h)

theorem fileEntry_eq (cfg : CompConfig) (e : DirEntry) (filePfx dir2 pfx : String)
    (hname : e.name ≠ "") :
    (if processFileEntry cfg e filePfx dir2 = "" then none
     else some (processFileEntry cfg e filePfx dir2))
    = (if !cfg.completionShowHidden && strStartsWith e.name "." then none
       else if !(if cfg.completionCaseInsensitive then
                   strStartsWith e.name.toLower filePfx.toLower
                 else strStartsWith e.name filePfx) then none
       else
         let completion :=
           if dir2 = "." then e.name
           else if strStartsWith pfx "/" || strStartsWith pfx "~/" then
             goJoin2 dir2 e.name
           else goJoin2 dir2 e.name
         some (if e.isDir then completion ++ "/" else completion)) := by
  by_cases hhid : (!cfg.completionShowHidden && strStartsWith e.name ".") = true
  · simp only [processFileEntry, hhid, if_pos, if_true]
  · have hhid2 : (!cfg.completionShowHidden && strStartsWith e.name ".") = false := by
      simpa using hhid
    by_cases hm : matchesPfx cfg e.name filePfx = true
    · have hm2 : (!matchesPfx cfg e.name filePfx) = false := by simp [hm]
      simp only [processFileEntry, hhid2, Bool.false_eq_true, if_false, hm2]
      have hcompl :
          (if dir2 = "." then e.name
           else if strStartsWith pfx "/" || strStartsWith pfx "~/" then
             goJoin2 dir2 e.name
           else goJoin2 dir2 e.name) = buildCompletion e.name dir2 := by
        unfold buildCompletion
        by_cases hd : dir2 = "."
        · simp [hd]
        · simp only [hd, if_false]
          by_cases hx : (strStartsWith pfx "/" || strStartsWith pfx "~/") = true
          · simp [hx]
          · simp [hx]
      have hne : (if e.isDir then buildCompletion e.name dir2 ++ "/"
          else buildCompletion e.name dir2) ≠ "" := by
        by_cases hdir : e.isDir
        · simp only [hdir, if_pos]
          exact append_slash_ne_empty _
        · simp only [hdir, Bool.false_eq_true, if_false]
          unfold buildCompletion
          by_cases hd : dir2 = "."
          · simpa [hd] using hname
          · simp only [hd, if_false]
            exact goJoin2_ne_empty dir2 e.name hname
      rw [if_neg hne]
      unfold matchesPfx at hm
      simp only [hm2, Bool.not_eq_true', hm, Bool.true_eq_false, if_false]
      rw [hcompl]
    · have hm2 : (!matchesPfx cfg e.name filePfx) = true := by simpa using hm
      simp only [processFileEntry, hhid2, Bool.false_eq_true, if_false, hm2, if_true]
      unfold matchesPfx at hm2
      simp only [hm2]
      rfl

theorem completeFile2_eq (cfg : CompConfig) (env : Env) (hwf : envWF env) :
    ∀ pfx : String, completeFile2 cfg env pfx = completeFile cfg env pfx := by
  intro pfx
  unfold completeFile completeFile2 parseFilePfx expandHomeDirectory
  by_cases hc : strContainsChar pfx '/' = true
  · simp only [hc, if_pos]
    cases hexp : (if strStartsWith (goDir pfx) "~/" = true then
        match env.home with
        | none => Except.error "user home directory not found"
        | some h => Except.ok (goJoin2 h (strDrop (goDir pfx) 2))
      else if goDir pfx = "~" then
        match env.home with
        | none => Except.error "user home directory not found"
        | some h => Except.ok h
      else Except.ok (goDir pfx)) with
    | error e => simp only [hexp]
    | ok dir2 =>
      simp only [hexp]
      cases hrd : readDir env.fs dir2 with
      | error e => simp only [hrd]
      | ok entries =>
        simp only [hrd]
        have hnames : ∀ e ∈ entries, e.name ≠ "" := by
          unfold readDir at hrd
          cases hlk : lookupAssoc env.fs dir2 with
          | none => rw [hlk] at hrd; exact absurd hrd (by simp)
          | some es2 =>
            rw [hlk] at hrd
            injection hrd with h2
            intro e he
            refine hwf (dir2, es2) (lookupAssoc_mem _ _ _ hlk) e ?_
            rw [h2]
            exact he
        congr 1
        congr 1
        refine List.filterMap_congr ?_
        intro e he
        exact (fileEntry_eq cfg e (goBase pfx) dir2 pfx (hnames e he)).symm
  · simp only [hc, Bool.false_eq_true, if_false]
    cases hexp : (if strStartsWith "." "~/" = true then
        match env.home with
        | none => Except.error "user home directory not found"
        | some h => Except.ok (goJoin2 h (strDrop "." 2))
      else if ("." : String) = "~" then
        match env.home with
        | none => Except.error "user home directory not found"
        | some h => Except.ok h
      else Except.ok ".") with
    | error e => simp only [hexp]
    | ok dir2 =>
      simp only [hexp]
      cases hrd : readDir env.fs dir2 with
      | error e => simp only [hrd]
      | ok entries =>
        simp only [hrd]
        have hnames : ∀ e ∈ entries, e.name ≠ "" := by
          unfold readDir at hrd
          cases hlk : lookupAssoc env.fs dir2 with
          | none => rw [hlk] at hrd; exact absurd hrd (by simp)
          | some es2 =>
            rw [hlk] at hrd
            injection hrd with h2
            intro e he
            refine hwf (dir2, es2) (lookupAssoc_mem _ _ _ hlk) e ?_
            rw [h2]
            exact he
        congr 1
        congr 1
        refine List.filterMap_congr ?_
        intro e he
        exact (fileEntry_eq cfg e pfx dir2 pfx (hnames e he)).symm

theorem completeGitSubcommands2_eq :
    ∀ pfx, completeGitSubcommands2 pfx = completeGitSubcommands pfx := fun _ => rfl

theorem completeGitBranches2_eq : ∀ cfg tokens,
    completeGitBranches2 cfg tokens = completeGitBranches cfg tokens := fun _ _ => rfl

theorem completeGitCommitOptions2_eq : ∀ tokens,
    completeGitCommitOptions2 tokens = completeGitCommitOptions tokens := fun _ => rfl

theorem completeGitRemotes2_eq : ∀ tokens,
    completeGitRemotes2 tokens = completeGitRemotes tokens := fun _ => rfl

theorem completeGitRemoteSubcommands2_eq : ∀ tokens,
    completeGitRemoteSubcommands2 tokens = completeGitRemoteSubcommands tokens :=
  fun _ => rfl

theorem completeGitRefs2_eq : ∀ tokens,
    completeGitRefs2 tokens = completeGitRefs tokens := fun _ => rfl

theorem completeGitModifiedFiles2_eq (cfg : CompConfig) (env : Env) (hwf : envWF env) :
    ∀ tokens, completeGitModifiedFiles2 cfg env tokens =
      completeGitModifiedFiles cfg env tokens := by
  intro tokens
  unfold completeGitModifiedFiles completeGitModifiedFiles2 MinTokensForCompletion
  exact completeFile2_eq cfg env hwf _

theorem completeGit2_eq (cfg : CompConfig) (env : Env) (hwf : envWF env) :
    ∀ tokens cursorPos input,
    completeGit2 cfg env tokens cursorPos input =
      completeGit cfg env tokens cursorPos input := by
  intro tokens cursorPos input
  unfold completeGit completeGit2 MinTokensForCompletion
  simp only [completeGitSubcommands2_eq, completeGitBranches2_eq,
    completeGitCommitOptions2_eq, completeGitRemotes2_eq,
    completeGitRemoteSubcommands2_eq, completeGitRefs2_eq,
    completeGitModifiedFiles2_eq cfg env hwf, completeFile2_eq cfg env hwf]

theorem Complete2_eq (cfg : CompConfig) (env : Env) (hwf : envWF env) :
    ∀ input cursorPos,
    Complete2 cfg env input cursorPos = Complete cfg env input cursorPos := by
  intro input cursorPos
  unfold Complete Complete2
  simp only [completeCommand2_eq, completeGit2_eq cfg env hwf,
    completeFile2_eq cfg env hwf]

/-- C10: the two embedded copies of the completion Manager are
extensionally equal: over the model environment (directory listings, PATH
contents and the home directory as fixed lookup tables, with the real-world
invariant that directory entry names are non-empty), both copies of
`Complete` return the same candidate list and the same error outcome on
every configuration and every (line, cursor) input. -/
theorem C10_manager_copies_equal :
    ∀ (cfg : CompConfig) (env : Env) (input : String) (cursorPos : Nat),
      envWF env →
      Complete2 cfg env input cursorPos = Complete cfg env input cursorPos := by
  intro cfg env input cursorPos hwf
  exact Complete2_eq cfg env hwf input cursorPos

/-- Closed instance of C10 at a concrete configuration and input. -/
theorem C10_witness :
    envWF witnessEnv
    ∧ Complete2 witnessCfg witnessEnv "ls re" 5 = Complete witnessCfg witnessEnv "ls re" 5
    ∧ Complete2 witnessCfg witnessEnv "git chec" 8 =
        Complete witnessCfg witnessEnv "git chec" 8 :=
  ⟨by decide,
   C10_manager_copies_equal witnessCfg witnessEnv "ls re" 5 (by decide),
   C10_manager_copies_equal witnessCfg witnessEnv "git chec" 8 (by decide)⟩

end Gosh
